import Mathlib

/-!
# Verification of the `data_fetcher` repository

A shallow embedding of the Python sources `src/fetch_all_listings/fetch.py`
and `src/utils.py` in Lean 4, together with theorems settling the frozen
claims about the program.

Modelling conventions:
* Python `str` is modelled as `List Char` (`Option (List Char)` where the
  Python code tests `isinstance(_, str)` and may receive `None`).
* Python `float` arithmetic on delays/timestamps is modelled with `ℚ`
  (exact arithmetic; the claims under study are order-theoretic).
* Character classes of the regexes (`\d`, `\s`, `[A-Za-z]`…) are modelled
  by their ASCII meaning, written via `Char.toNat` comparisons.
* Fallible code returns `Option`; an exception raised by an HTTP call is a
  constructor of `HttpOutcome` carrying the Python `str(e)` message.
-/

namespace DataFetcher

/-! ## Basic string helpers (Python `in`, `str.strip`, `str.lower`) -/

/-- Models `beginsWith needle cs`: `needle` is a prefix of `cs` (Boolean). -/
def beginsWith : List Char → List Char → Bool
  | [], _ => true
  | _ :: _, [] => false
  | p :: ps, c :: cs => p == c && beginsWith ps cs

/-- Models `listContains needle hay`: Python `needle in hay` substring test. -/
def listContains (needle : List Char) : List Char → Bool
  | [] => beginsWith needle []
  | c :: cs => beginsWith needle (c :: cs) || listContains needle cs

/-- ASCII whitespace, Python's `\s` class / `str.strip` default set
(space, tab, newline, carriage return, vertical tab, form feed). -/
def isSpaceChar (c : Char) : Bool := c.toNat == 32 || (9 ≤ c.toNat && c.toNat ≤ 13)

/-- ASCII decimal digit (`\d`, `[0-9]`). -/
def isDigitChar (c : Char) : Bool := 48 ≤ c.toNat && c.toNat ≤ 57

/-- ASCII letter (`[A-Za-z]`). -/
def isAlphaChar (c : Char) : Bool :=
  (65 ≤ c.toNat && c.toNat ≤ 90) || (97 ≤ c.toNat && c.toNat ≤ 122)

/-- Strip whitespace from the right end (helper for `pyStrip`). -/
def pyStripRight (cs : List Char) : List Char :=
  (cs.reverse.dropWhile isSpaceChar).reverse

/-- Python `str.strip()`: remove leading and trailing whitespace. -/
def pyStrip (cs : List Char) : List Char :=
  pyStripRight (cs.dropWhile isSpaceChar)

/-- Python `str.lower()` restricted to ASCII letters. -/
def lowerChar (c : Char) : Char :=
  if 65 ≤ c.toNat && c.toNat ≤ 90 then Char.ofNat (c.toNat + 32) else c

/-- Lowercase a whole string. -/
def lowerL (cs : List Char) : List Char := cs.map lowerChar

/-! ## `fetch_all_listings/fetch.py`: `fetch_page` and `fetch_first_page`

The HTTP request (`requests.get` + `raise_for_status` + `.json()`) and the
SQLite write (`save_page_to_db`) are external effects; they are passed in as
oracles: `http k` is the outcome of the `k`-th attempt (indexed by
`retry_count`) for this page, and `save p` tells whether the database write
for page `p` succeeds. -/

/-- Outcome of one HTTP attempt: a decoded JSON page, or an exception whose
`str(e)` is the given message. -/
inductive HttpOutcome where
  | ok (listings : List (List Char)) (total_count : Nat)
  | exn (error_str : List Char)

/-- The result dict built by `fetch_page`. Fields absent from one of the
two dict literals in the source are `Option`-valued. -/
structure FetchResult where
  page : Nat
  listings : List (List Char)
  total_count : Nat
  success : Bool
  db_saved : Bool
  error : Option (List Char) := none
  retries : Option Nat := none
  deriving DecidableEq

/-- The substrings of `str(e)` that `fetch_page` treats as retryable
network errors. -/
def retryableSubstrings : List (List Char) :=
  ["NameResolutionError".data, "ConnectionError".data,
   "Max retries exceeded".data, "timed out".data, "Connection reset".data]

/-- Models `any(x in error_str for x in [...])` in `fetch_page`. -/
def isRetryableError (error_str : List Char) : Bool :=
  retryableSubstrings.any fun x => listContains x error_str

/-- Models `fetch_page(page_num, location_id, limit, retry_count)` together with the
number of HTTP attempts it makes (second component). The recursion mirrors
the source: on an exception whose message contains a retryable marker and
with `retry_count < max_retries`, it sleeps and calls itself with
`retry_count + 1`; otherwise it returns the failure dict. `location_id` and
`limit` only shape the request parameters and are absorbed into `http`. -/
def fetch_page_core (http : Nat → HttpOutcome) (save : Nat → Bool)
    (max_retries page_num retry_count : Nat) : FetchResult × Nat :=
  match http retry_count with
  | .ok listings total_count =>
    ({ page := page_num, listings := listings, total_count := total_count,
       success := true, db_saved := save page_num }, 1)
  | .exn e =>
    if h : retry_count < max_retries ∧ isRetryableError e = true then
      let r := fetch_page_core http save max_retries page_num (retry_count + 1)
      (r.1, r.2 + 1)
    else
      ({ page := page_num, listings := [], total_count := 0, success := false,
         db_saved := false, error := some e, retries := some retry_count }, 1)
termination_by max_retries - retry_count
decreasing_by omega

/-- The result dict of `fetch_page` (attempt count projected away). -/
def fetch_page (http : Nat → HttpOutcome) (save : Nat → Bool)
    (max_retries page_num retry_count : Nat) : FetchResult :=
  (fetch_page_core http save max_retries page_num retry_count).1

/-- Models `fetch_first_page(location_id, limit)`: fetch page 1, and derive the
total page count from `total_count` when the fetch succeeded. -/
def fetch_first_page (http : Nat → HttpOutcome) (save : Nat → Bool)
    (max_retries limit : Nat) : FetchResult × Nat :=
  let result := fetch_page http save max_retries 1 0
  if result.success = true ∧ 0 < result.total_count then
    (result, (result.total_count + limit - 1) / limit)
  else
    (result, 0)

/-! ## `utils.py`: `RateLimiter`

Delays are Python floats; they are modelled with `ℚ`. `wait()` only sleeps
and touches `last_request_time`; the claims concern `record_success`,
`record_failure` and `reset`. -/

structure RateLimiter where
  min_delay : ℚ
  max_delay : ℚ
  backoff_factor : ℚ
  jitter : ℚ
  current_delay : ℚ
  last_request_time : ℚ
  failure_count : Nat
  deriving DecidableEq

namespace RateLimiter

/-- Models `RateLimiter.__init__`. -/
def init (min_delay max_delay backoff_factor jitter : ℚ) : RateLimiter :=
  { min_delay := min_delay, max_delay := max_delay,
    backoff_factor := backoff_factor, jitter := jitter,
    current_delay := min_delay, last_request_time := 0, failure_count := 0 }

/-- Models `record_success`: reset the failure count, divide the delay by the
backoff factor, floored at `min_delay`. -/
def record_success (r : RateLimiter) : RateLimiter :=
  { r with failure_count := 0,
           current_delay := max r.min_delay (r.current_delay / r.backoff_factor) }

/-- Models `record_failure`: bump the failure count, multiply the delay by the
backoff factor, capped at `max_delay`. -/
def record_failure (r : RateLimiter) : RateLimiter :=
  { r with failure_count := r.failure_count + 1,
           current_delay := min r.max_delay (r.current_delay * r.backoff_factor) }

/-- Models `reset`: back to the initial state. -/
def reset (r : RateLimiter) : RateLimiter :=
  { r with current_delay := r.min_delay, failure_count := 0, last_request_time := 0 }

end RateLimiter

/-- One method call in a `record_success` / `record_failure` / `reset`
sequence on a `RateLimiter`. -/
inductive RLOp where
  | success
  | failure
  | rset
  deriving DecidableEq

/-- Apply one operation. -/
def RateLimiter.step (r : RateLimiter) : RLOp → RateLimiter
  | .success => r.record_success
  | .failure => r.record_failure
  | .rset => r.reset

/-- Apply a sequence of operations, left to right. -/
def RateLimiter.runOps (r : RateLimiter) (ops : List RLOp) : RateLimiter :=
  ops.foldl RateLimiter.step r

/-! ## `utils.py`: `CircuitBreaker`

`datetime.now(timezone.utc)` timestamps are modelled as `ℚ` values passed
to the operations that read the clock; `CircuitBreakerOpenError` raised by
`__enter__` is the `none` branch of `enter`. The `state` attribute is kept
as the literal Python string. -/

structure CircuitBreaker where
  failure_threshold : Nat
  recovery_timeout : ℚ
  failure_count : Nat
  last_failure_time : Option ℚ
  state : List Char
  deriving DecidableEq

namespace CircuitBreaker

/-- Models `CircuitBreaker.__init__` (the `expected_exception` attribute only
matters to `__exit__` and is omitted). -/
def init (failure_threshold : Nat) (recovery_timeout : ℚ) : CircuitBreaker :=
  { failure_threshold := failure_threshold, recovery_timeout := recovery_timeout,
    failure_count := 0, last_failure_time := none, state := "closed".data }

/-- Models `_can_attempt_recovery`, with `now` the current clock reading. -/
def can_attempt_recovery (now : ℚ) (cb : CircuitBreaker) : Bool :=
  match cb.last_failure_time with
  | none => true
  | some t => cb.recovery_timeout ≤ now - t

/-- Models `record_failure`, with `t` the clock reading stored as
`last_failure_time`. -/
def record_failure (t : ℚ) (cb : CircuitBreaker) : CircuitBreaker :=
  let fc := cb.failure_count + 1
  { cb with failure_count := fc, last_failure_time := some t,
            state := if cb.failure_threshold ≤ fc then "open".data else cb.state }

/-- Models `record_success`. -/
def record_success (cb : CircuitBreaker) : CircuitBreaker :=
  { cb with failure_count := 0, state := "closed".data }

/-- Models `reset`. -/
def reset (cb : CircuitBreaker) : CircuitBreaker :=
  { cb with failure_count := 0, last_failure_time := none, state := "closed".data }

/-- Models `__enter__`: `none` models raising `CircuitBreakerOpenError`; otherwise
the (possibly updated) object is returned. -/
def enter (now : ℚ) (cb : CircuitBreaker) : Option CircuitBreaker :=
  if cb.state = "open".data then
    if can_attempt_recovery now cb then
      some { cb with state := "half-open".data }
    else
      none
  else
    some cb

end CircuitBreaker

/-- One method call on a `CircuitBreaker`; clock-reading calls carry the
time observed. -/
inductive CBOp where
  | fail (t : ℚ)
  | succ
  | rset
  | enter (now : ℚ)

/-- A raising `__enter__` leaves the object unchanged (the exception
propagates to the caller); all other calls update it. -/
def CircuitBreaker.step (cb : CircuitBreaker) : CBOp → CircuitBreaker
  | .fail t => cb.record_failure t
  | .succ => cb.record_success
  | .rset => cb.reset
  | .enter now => (cb.enter now).getD cb

/-- Run a call sequence from a given state. -/
def CircuitBreaker.runOps (cb : CircuitBreaker) (ops : List CBOp) : CircuitBreaker :=
  ops.foldl CircuitBreaker.step cb

/-- Run a call sequence on a freshly constructed breaker. -/
def CircuitBreaker.runFresh (failure_threshold : Nat) (recovery_timeout : ℚ)
    (ops : List CBOp) : CircuitBreaker :=
  (CircuitBreaker.init failure_threshold recovery_timeout).runOps ops

/-- The sequence contains no `__enter__` call. -/
def CBOp.noEnter : List CBOp → Prop
  | [] => True
  | .enter _ :: _ => False
  | _ :: ops => noEnter ops

/-- Number of `record_failure` calls since the last `record_success` or
`reset` (the whole count if there is none), starting from `n` pending
failures; `__enter__` does not touch the counter. -/
def CBOp.countAfter (n : Nat) : List CBOp → Nat
  | [] => n
  | .fail _ :: ops => countAfter (n + 1) ops
  | .succ :: ops => countAfter 0 ops
  | .rset :: ops => countAfter 0 ops
  | .enter _ :: ops => countAfter n ops

/-- Number of `record_failure` calls in `ops` after the last
`record_success`/`reset`. -/
def CBOp.failsSinceClear (ops : List CBOp) : Nat := CBOp.countAfter 0 ops

/-! ## `utils.py`: validation helpers

Each `validate_*` takes `Option (List Char)` because the Python functions
first test `if not x or not isinstance(x, str)`. The anchored regexes are
deterministic on their character classes, so full matching is rendered by
direct class checks (see the doc comment of each function). -/

/-- Models `validate_rera`: `^[\d\-]+$` on the stripped string (nonempty run of
digits and dashes). -/
def validate_rera (rera : Option (List Char)) : Bool :=
  match rera with
  | none => false
  | some s =>
    if s = [] then false
    else
      let t := pyStrip s
      !t.isEmpty && t.all fun c => isDigitChar c || c == '-'

/-- The class `[0-9\s\-()]` (and `[\d\s\-()]`) of the phone regexes. -/
def isPhoneClassChar (c : Char) : Bool :=
  isDigitChar c || isSpaceChar c || c == '-' || c == '(' || c == ')'

/-- Models `validate_phone`: `^\+?[\d\s\-()]{6,}$` on the stripped string. The
leading `+`, if present, must be consumed by `\+?` (it is not in the body
class), after which the whole remainder must be six or more class
characters. -/
def validate_phone (phone : Option (List Char)) : Bool :=
  match phone with
  | none => false
  | some s =>
    if s = [] then false
    else
      match pyStrip s with
      | '+' :: rest => rest.all isPhoneClassChar && 6 ≤ rest.length
      | t => t.all isPhoneClassChar && 6 ≤ t.length

/-- The local-part class `[A-Za-z0-9._%+-]` of the email regexes. -/
def isLocalChar (c : Char) : Bool :=
  isAlphaChar c || isDigitChar c || c == '.' || c == '_' || c == '%' || c == '+' || c == '-'

/-- The domain class `[A-Za-z0-9.-]` of the email regexes. -/
def isDomainChar (c : Char) : Bool :=
  isAlphaChar c || isDigitChar c || c == '.' || c == '-'

/-- Full match of the domain tail `[A-Za-z0-9.-]+\.[A-Za-z]{2,}` against
the whole of `r2`. The terminal `[A-Za-z]{2,}` must fill the string's
alphabetic suffix exactly, the character before it must be the literal dot,
and what precedes must be a nonempty run of domain characters — the
backtracking engine accepts iff such a split exists, and since the
characters of the alphabetic suffix are not dots the split is unique. -/
def emailDomainFull (r2 : List Char) : Bool :=
  2 ≤ (r2.reverse.takeWhile isAlphaChar).length &&
    match r2.reverse.drop (r2.reverse.takeWhile isAlphaChar).length with
    | '.' :: dRev => !dRev.isEmpty && dRev.all isDomainChar
    | _ => false

/-- Full match of `^[A-Za-z0-9._%+-]+@[A-Za-z0-9.-]+\.[A-Za-z]{2,}$`.
`@` is not a local character, so the local part must be the maximal
local-character run. -/
def emailFullMatch (t : List Char) : Bool :=
  !(t.takeWhile isLocalChar).isEmpty &&
    match t.drop (t.takeWhile isLocalChar).length with
    | '@' :: r2 => emailDomainFull r2
    | _ => false

/-- Models `validate_email`: anchored email pattern on the stripped string. -/
def validate_email (email : Option (List Char)) : Bool :=
  match email with
  | none => false
  | some s =>
    if s = [] then false
    else emailFullMatch (pyStrip s)

/-! ## `utils.py`: the `re.findall` scanners of `extract_owner_details`

Each Python regex is rendered as a deterministic attempt function
`try*At : List Char → Option (List Char × List Char)` returning the
captured text and the rest of the input after the match end, applied at
every position left to right exactly as `re.findall` scans. Determinism of
each attempt is justified in the doc comments: wherever the regex engine
could backtrack, the neighbouring literal is outside the repeated class, so
only one split can succeed. -/

/-- Models `cs.dropWhile isSpaceChar`: the action of a greedy `\s*` that is
followed by a non-whitespace literal. -/
def skipWS (cs : List Char) : List Char := cs.dropWhile isSpaceChar

/-- Match an ASCII-lowercase literal case-insensitively (`re.IGNORECASE`)
as a prefix, returning the rest. -/
def matchCI : List Char → List Char → Option (List Char)
  | [], cs => some cs
  | _ :: _, [] => none
  | p :: ps, c :: cs => if lowerChar c == p then matchCI ps cs else none

/-- The tail of `(?:📝\s*)?name\s*:\s*(.+?)(?=\n|$)` after the colon,
`t3` being the input there. `\s*` is greedy; if it runs to the end of the
input the engine backs off to the last non-newline whitespace character so
that `.+?` (which cannot cross a newline) is nonempty; the lookahead stops
the non-greedy group just before the next newline or the end. Returns
`(captured group, rest after the match end)`. -/
def nameGroup (t3 : List Char) : Option (List Char × List Char) :=
  let t4 := t3.dropWhile isSpaceChar
  if t4.isEmpty then
    let rev := (t3.takeWhile isSpaceChar).reverse
    let nl := rev.takeWhile fun c => c == '\n'
    match rev.drop nl.length with
    | [] => none
    | c :: _ => some ([c], nl.reverse)
  else
    some (t4.takeWhile fun c => !(c == '\n'), t4.dropWhile fun c => !(c == '\n'))

/-- One attempt of the name regex `(?:📝\s*)?name\s*:\s*(.+?)(?=\n|$)`
(IGNORECASE, MULTILINE) at the start of `cs`. The optional emoji prefix,
`name` and `:` are each preceded by greedy `\s*` whose end is forced by the
following non-whitespace literal. -/
def tryNameAt (cs : List Char) : Option (List Char × List Char) :=
  match matchCI "name".data (match cs with | '📝' :: rest => skipWS rest | _ => cs) with
  | none => none
  | some t1 =>
    match skipWS t1 with
    | ':' :: t3 => nameGroup t3
    | _ => none

/-- Backtracking step of the phone group `(\+?[0-9\s\-()]{6,})`: the run
from the end of the greedy `\s*` is `run` (empty when the engine stops at a
`+` it cannot use) and is shorter than 6, so the engine hands back
`6 - run.length` whitespace characters from the end of the skipped
whitespace `w` (whitespace is in the class); the group then has exactly six
characters. -/
def phoneBacktrack (w run t4 : List Char) : Option (List Char × List Char) :=
  if 6 - run.length ≤ w.length then
    some (w.drop (w.length - (6 - run.length)) ++ run, t4.drop run.length)
  else none

/-- The phone group `(\+?[0-9\s\-()]{6,})` after `:`, with `t3` the input
there. A leading `+` is consumed only if at least six class characters
follow it; `+` is not in the class, so otherwise the engine backtracks into
the whitespace skipped by `\s*`. -/
def phoneGroup (t3 : List Char) : Option (List Char × List Char) :=
  match t3.dropWhile isSpaceChar with
  | '+' :: t5 =>
    if 6 ≤ (t5.takeWhile isPhoneClassChar).length then
      some ('+' :: t5.takeWhile isPhoneClassChar,
        t5.drop (t5.takeWhile isPhoneClassChar).length)
    else
      phoneBacktrack (t3.takeWhile isSpaceChar) [] (t3.dropWhile isSpaceChar)
  | t4 =>
    if 6 ≤ (t4.takeWhile isPhoneClassChar).length then
      some (t4.takeWhile isPhoneClassChar, t4.drop (t4.takeWhile isPhoneClassChar).length)
    else
      phoneBacktrack (t3.takeWhile isSpaceChar) (t4.takeWhile isPhoneClassChar) t4

/-- One attempt of `(?:📞\s*)?phone\s*:\s*(\+?[0-9\s\-()]{6,})`
(IGNORECASE) at the start of `cs`. -/
def tryPhoneAt (cs : List Char) : Option (List Char × List Char) :=
  match matchCI "phone".data (match cs with | '📞' :: rest => skipWS rest | _ => cs) with
  | none => none
  | some t1 =>
    match skipWS t1 with
    | ':' :: t3 => phoneGroup t3
    | _ => none

/-- Backtracking search for `[A-Za-z0-9.-]+\.[A-Za-z]{2,}` after the `@`:
the greedy `D+` is given back one character at a time, so the split point
`k` (the index of the literal dot) is the largest index `≥ 1` such that the
prefix before it is all domain characters, `r2[k]` is a dot and at least two
alphabetic characters follow; `[A-Za-z]{2,}` then takes the maximal
alphabetic run. Returns `(matched text, rest)`. -/
def emailDomainSearch (r2 : List Char) : Nat → Option (List Char × List Char)
  | 0 => none
  | n + 1 =>
    if r2.get? (n + 1) == some '.' &&
        2 ≤ ((r2.drop (n + 2)).takeWhile isAlphaChar).length &&
        (r2.take (n + 1)).all isDomainChar then
      some (r2.take (n + 2 + ((r2.drop (n + 2)).takeWhile isAlphaChar).length),
        r2.drop (n + 2 + ((r2.drop (n + 2)).takeWhile isAlphaChar).length))
    else emailDomainSearch r2 n

/-- The domain tail of the email regex, starting the dot search at the last
position inside the maximal domain-character run. -/
def emailDomain (r2 : List Char) : Option (List Char × List Char) :=
  emailDomainSearch r2 ((r2.takeWhile isDomainChar).length - 1)

/-- One attempt of `[A-Za-z0-9._%+-]+@[A-Za-z0-9.-]+\.[A-Za-z]{2,}` at the
start of `cs`; `@` is not a local character, so the local part must be the
maximal local run. `re.findall` without groups yields the whole match. -/
def tryEmailAt (cs : List Char) : Option (List Char × List Char) :=
  if (cs.takeWhile isLocalChar).isEmpty then none
  else
    match cs.drop (cs.takeWhile isLocalChar).length with
    | '@' :: r2 =>
      match emailDomain r2 with
      | some (dm, rest) => some (cs.takeWhile isLocalChar ++ '@' :: dm, rest)
      | none => none
    | _ => none

/-- Left-to-right non-overlapping scan of `re.findall`: try a match at each
position; on success, emit it and resume at the match end. Every successful
attempt consumes at least one character, so `length + 1` fuel suffices. -/
def scanCore (tryAt : List Char → Option (List Char × List Char)) :
    Nat → List Char → List (List Char)
  | 0, _ => []
  | _ + 1, [] => []
  | fuel + 1, c :: cs =>
    match tryAt (c :: cs) with
    | some (g, rest) => g :: scanCore tryAt fuel rest
    | none => scanCore tryAt fuel cs

/-- Models `re.findall` for the name regex. -/
def findall_names (t : List Char) : List (List Char) :=
  scanCore tryNameAt (t.length + 1) t

/-- Models `re.findall` for the phone regex. -/
def findall_phones (t : List Char) : List (List Char) :=
  scanCore tryPhoneAt (t.length + 1) t

/-- Models `re.findall` for the email regex. -/
def findall_emails (t : List Char) : List (List Char) :=
  scanCore tryEmailAt (t.length + 1) t

/-! ## `utils.py`: `extract_owner_details` -/

/-- Models `'\n'.join(responses_text)`. -/
def joinNL : List (List Char) → List Char
  | [] => []
  | [t] => t
  | t :: ts => t ++ '\n' :: joinNL ts

/-- Post-processing of a name match:
`match.strip().split('\n')[0].strip()`. -/
def postName (g : List Char) : List Char :=
  pyStrip ((pyStrip g).takeWhile fun c => !(c == '\n'))

/-- Post-processing of a phone or email match: `match.strip()`. -/
def postStrip (g : List Char) : List Char := pyStrip g

/-- The accumulation loop
`if x and x not in acc: acc.append(x)` over the processed matches. -/
def pyDedup (acc : List (List Char)) : List (List Char) → List (List Char)
  | [] => acc
  | x :: xs => if x ≠ [] ∧ x ∉ acc then pyDedup (acc ++ [x]) xs else pyDedup acc xs

/-- The processed name matches of the combined text, in scan (text) order. -/
def name_entries (combined : List Char) : List (List Char) :=
  (findall_names combined).map postName

/-- The processed phone matches, in scan (text) order. -/
def phone_entries (combined : List Char) : List (List Char) :=
  (findall_phones combined).map postStrip

/-- The processed email matches, in scan (text) order. -/
def email_entries (combined : List Char) : List (List Char) :=
  (findall_emails combined).map postStrip

/-- Models `extract_owner_details(responses_text)`: join the responses with
newlines, run the three `re.findall`s, post-process each match and append
it if nonempty and not already collected. -/
def extract_owner_details (responses_text : List (List Char)) :
    List (List Char) × List (List Char) × List (List Char) :=
  let combined_text := joinNL responses_text
  (pyDedup [] (name_entries combined_text),
   pyDedup [] (phone_entries combined_text),
   pyDedup [] (email_entries combined_text))

/-! ## `utils.py`: `has_owner_details` and `has_owner_details_response` -/

/-- One attempt of `(📝\s*)?name\s*:\s*\S+` (resp. with `📞`/`phone`) used
by `re.search`: after the colon, a greedy `\s*` then at least one
non-whitespace character — which exists iff skipping all whitespace leaves
something. -/
def fieldAt (emoji : Char) (pat : List Char) (cs : List Char) : Bool :=
  let t0 := match cs with
    | e :: rest => if e == emoji then skipWS rest else cs
    | [] => cs
  match matchCI pat t0 with
  | none => false
  | some t1 =>
    match skipWS t1 with
    | ':' :: t3 => !(skipWS t3).isEmpty
    | _ => false

/-- Models `re.search`: does the attempt succeed at some position? -/
def searchAny (f : List Char → Bool) : List Char → Bool
  | [] => f []
  | c :: cs => f (c :: cs) || searchAny f cs

/-- The `Name:`/`Phone:` field pair test shared by both functions:
`re.search(r'(📝\s*)?name\s*:\s*\S+')` and
`re.search(r'(📞\s*)?phone\s*:\s*\S+')`, both IGNORECASE, both on the
stripped text. -/
def hasNamePhoneFields (t : List Char) : Bool :=
  searchAny (fieldAt '📝' "name".data) t && searchAny (fieldAt '📞' "phone".data) t

/-- The owner-block marker test `'👤 owner details:' in t.lower() or
'owner details:' in t.lower()`. -/
def hasOwnerMarker (tl : List Char) : Bool :=
  listContains "👤 owner details:".data tl || listContains "owner details:".data tl

/-- The explicit-unavailable test `'owner details unavailable' in t.lower()
or '❌ owner details unavailable' in t.lower()`. -/
def hasUnavailableMarker (tl : List Char) : Bool :=
  listContains "owner details unavailable".data tl ||
    listContains "❌ owner details unavailable".data tl

/-- Models `has_owner_details(responses_text)`: per response — skip empty, strip,
then marker ⇒ `True`, name-and-phone fields ⇒ `True`, unavailable message
⇒ `False`; `False` when the list is exhausted. -/
def has_owner_details : List (List Char) → Bool
  | [] => false
  | text :: rest =>
    if text = [] then has_owner_details rest
    else
      let t := pyStrip text
      if hasOwnerMarker (lowerL t) then true
      else if hasNamePhoneFields t then true
      else if hasUnavailableMarker (lowerL t) then false
      else has_owner_details rest

/-- Models `has_owner_details_response(responses_text)`: same tests, but the
unavailable message is checked first and the result is the pair
`(has_owner_details, has_unavailable_message)`. -/
def has_owner_details_response : List (List Char) → Bool × Bool
  | [] => (false, false)
  | text :: rest =>
    if text = [] then has_owner_details_response rest
    else
      let t := pyStrip text
      if hasUnavailableMarker (lowerL t) then (false, true)
      else if hasOwnerMarker (lowerL t) then (true, false)
      else if hasNamePhoneFields t then (true, false)
      else has_owner_details_response rest

/-! ## `utils.py`: `serialize_for_db` and `deserialize_from_db`

Values passed to these helpers are JSON-representable Python values
(`None`, bools, ints, strings, lists, string-keyed dicts; the repository
never stores floats through them). `json.dumps(·, ensure_ascii=False)` and
`json.loads` are Python standard-library functions, external to this
repository; they are passed in as an abstract codec, and the round-trip
facts assume the stdlib contract `loads(dumps(v)) == v` and
`dumps(v) != ""` at the value in question. -/

/-- JSON-representable Python values. -/
inductive PyVal where
  | pnull
  | pbool (b : Bool)
  | pint (n : Int)
  | pstr (s : List Char)
  | plist (items : List PyVal)
  | pdict (entries : List (List Char × PyVal))
  deriving BEq

/-- Python `str(value)` for the scalar fallthrough of `serialize_for_db`
(`None` never reaches it). -/
def pyStr : PyVal → List Char
  | .pnull => "None".data
  | .pbool true => "True".data
  | .pbool false => "False".data
  | .pint n => (toString n).data
  | .pstr s => s
  | .plist _ => []
  | .pdict _ => []

/-- Models `serialize_for_db(value)`: `None` and empty containers become `None`
(SQL `NULL`); other containers are JSON-dumped; scalars go through
`str`. -/
def serialize_for_db (dumps : PyVal → List Char) : PyVal → Option (List Char)
  | .pnull => none
  | .plist [] => none
  | .pdict [] => none
  | .plist items => some (dumps (.plist items))
  | .pdict entries => some (dumps (.pdict entries))
  | v => some (pyStr v)

/-- Models `deserialize_from_db(json_str, default)`: falsy input (SQL `NULL` or
the empty string) gives the default, otherwise `json.loads` with the
default on a decode error. -/
def deserialize_from_db (loads : List Char → Option PyVal)
    (json_str : Option (List Char)) (default : PyVal) : PyVal :=
  match json_str with
  | none => default
  | some s => if s = [] then default else (loads s).getD default

/-! # Theorems -/

/-! ## C1: retry exhaustion in `fetch_page` -/

/-- Attempt-count/result lemma for the everywhere-failing retryable case,
by induction on the remaining retry budget. -/
theorem fetch_page_core_fail_all (http : Nat → HttpOutcome) (save : Nat → Bool)
    (m p : Nat) (hfail : ∀ k, ∃ e, http k = HttpOutcome.exn e ∧ isRetryableError e = true) :
    ∀ d rc, m - rc = d → rc ≤ m →
      (fetch_page_core http save m p rc).2 = d + 1 ∧
      ∃ e, http m = HttpOutcome.exn e ∧
        (fetch_page_core http save m p rc).1 =
          { page := p, listings := [], total_count := 0, success := false,
            db_saved := false, error := some e, retries := some m } := by
  intro d
  induction d with
  | zero =>
    intro rc hd hle
    obtain ⟨e, he, hr⟩ := hfail rc
    have hrc : rc = m := by omega
    subst hrc
    rw [fetch_page_core]
    simp only [he]
    rw [dif_neg (fun h => absurd h.1 (by omega))]
    exact ⟨rfl, e, by simp [he], rfl⟩
  | succ d ih =>
    intro rc hd hle
    obtain ⟨e, he, hr⟩ := hfail rc
    rw [fetch_page_core]
    simp only [he]
    rw [dif_pos ⟨by omega, hr⟩]
    obtain ⟨h2, e2, he2, h1⟩ := ih (rc + 1) (by omega) (by omega)
    exact ⟨by simp [h2], e2, he2, by simp [h1]⟩

/-- The function `fetch_page` makes at most `max_retries - retry_count + 1` HTTP
attempts, whatever the outcomes. -/
theorem fetch_page_core_attempts_le (http : Nat → HttpOutcome) (save : Nat → Bool)
    (m p : Nat) : ∀ d rc, m - rc ≤ d → (fetch_page_core http save m p rc).2 ≤ d + 1 := by
  intro d
  induction d with
  | zero =>
    intro rc hd
    rw [fetch_page_core]
    cases hck : http rc with
    | ok listings tc => simp [hck]
    | exn e =>
      simp only [hck]
      rw [dif_neg (fun h => absurd h.1 (by omega))]
  | succ d ih =>
    intro rc hd
    rw [fetch_page_core]
    cases hck : http rc with
    | ok listings tc => simp [hck]
    | exn e =>
      simp only [hck]
      by_cases hc : rc < m ∧ isRetryableError e = true
      · rw [dif_pos hc]
        have := ih (rc + 1) (by omega)
        simpa using Nat.add_le_add_right this 1
      · rw [dif_neg hc]
        omega

/-- C1. If every HTTP attempt for a page raises a retryable network error
(message containing one of the five markers), `fetch_page` makes exactly
`max_retries + 1` attempts and returns the failure dict — `success = False`,
empty `listings`, `total_count = 0`, `retries = max_retries` — without
raising; in every case it makes at most `max_retries + 1` attempts; and on a
first-attempt non-retryable exception it returns the failure dict after a
single attempt. -/
theorem fetch_page_retry_exhaustion :
    (∀ http save m p,
      (∀ k, ∃ e, http k = HttpOutcome.exn e ∧ isRetryableError e = true) →
        (fetch_page_core http save m p 0).2 = m + 1 ∧
        (fetch_page http save m p 0).success = false ∧
        (fetch_page http save m p 0).listings = [] ∧
        (fetch_page http save m p 0).total_count = 0 ∧
        (fetch_page http save m p 0).retries = some m) ∧
    (∀ http save m p, (fetch_page_core http save m p 0).2 ≤ m + 1) ∧
    (∀ http save m p e, http 0 = HttpOutcome.exn e → isRetryableError e = false →
        fetch_page_core http save m p 0 =
          ({ page := p, listings := [], total_count := 0, success := false,
             db_saved := false, error := some e, retries := some 0 }, 1)) := by
  refine ⟨?_, ?_, ?_⟩
  · intro http save m p hfail
    obtain ⟨h2, e, he, h1⟩ :=
      fetch_page_core_fail_all http save m p hfail m 0 (by omega) (by omega)
    refine ⟨h2, ?_, ?_, ?_, ?_⟩ <;> simp [fetch_page, h1]
  · intro http save m p
    exact fetch_page_core_attempts_le http save m p m 0 (by omega)
  · intro http save m p e he hnr
    rw [fetch_page_core]
    simp only [he]
    rw [dif_neg (by simp [hnr])]

/-- A persistently failing oracle: every attempt raises
`requests.exceptions.ConnectionError`. -/
def httpConnErr : Nat → HttpOutcome := fun _ => HttpOutcome.exn "ConnectionError: boom".data

/-- An oracle whose first attempt raises a non-retryable `ValueError`. -/
def httpValueErr : Nat → HttpOutcome := fun _ => HttpOutcome.exn "ValueError: nope".data

/-- A DB-save oracle that always succeeds. -/
def saveAlways : Nat → Bool := fun _ => true

/-- Witness for C1 at `max_retries = 2`, page 7. -/
theorem fetch_page_retry_exhaustion_witness :
    ((fetch_page_core httpConnErr saveAlways 2 7 0).2 = 2 + 1 ∧
      (fetch_page httpConnErr saveAlways 2 7 0).success = false ∧
      (fetch_page httpConnErr saveAlways 2 7 0).listings = [] ∧
      (fetch_page httpConnErr saveAlways 2 7 0).total_count = 0 ∧
      (fetch_page httpConnErr saveAlways 2 7 0).retries = some 2) ∧
    (fetch_page_core httpValueErr saveAlways 2 7 0).2 = 1 := by
  constructor
  · exact fetch_page_retry_exhaustion.1 httpConnErr saveAlways 2 7
      (fun k => ⟨"ConnectionError: boom".data, rfl, by decide⟩)
  · rw [fetch_page_retry_exhaustion.2.2 httpValueErr saveAlways 2 7
      "ValueError: nope".data rfl (by decide)]

/-! ## C2: `fetch_first_page` page count -/

/-- The quotient `(tc + limit - 1) / limit` is the ceiling of `tc / limit`. -/
theorem nat_ceil_div (tc limit : Nat) (hl : 0 < limit) (htc : 0 < tc) :
    (tc + limit - 1) / limit = ⌈(tc : ℚ) / (limit : ℚ)⌉₊ := by
  set q := (tc + limit - 1) / limit with hq
  have hdm := Nat.div_add_mod (tc + limit - 1) limit
  have hmlt : (tc + limit - 1) % limit < limit := Nat.mod_lt _ hl
  set M := limit * q with hM
  set r := (tc + limit - 1) % limit with hr
  have hub : tc ≤ M := by omega
  have hq1 : 1 ≤ q := by
    rcases Nat.eq_zero_or_pos q with h0 | h1
    · rw [h0, Nat.mul_zero] at hM
      omega
    · exact h1
  have hsplit : limit * (q - 1) + limit = M := by
    rcases Nat.exists_eq_add_of_le hq1 with ⟨k, hk⟩
    rw [hM, hk, Nat.add_sub_cancel_left]
    ring
  have hlb : limit * (q - 1) < tc := by omega
  symm
  rw [Nat.ceil_eq_iff (by omega)]
  constructor
  · rw [lt_div_iff₀ (by exact_mod_cast hl)]
    calc ((q - 1 : ℕ) : ℚ) * (limit : ℚ) = ((q - 1) * limit : ℕ) := by push_cast; ring
    _ < (tc : ℚ) := by exact_mod_cast (Nat.mul_comm limit (q - 1) ▸ hlb)
  · rw [div_le_iff₀ (by exact_mod_cast hl)]
    calc (tc : ℚ) ≤ ((limit * q : ℕ) : ℚ) := by exact_mod_cast hub
    _ = (q : ℚ) * (limit : ℚ) := by push_cast; ring

/-- C2. When page 1 is fetched successfully with a positive `total_count`,
`fetch_first_page` reports `(total_count + limit - 1) // limit` pages, which
is the ceiling of `total_count / limit` for every positive `limit`; when the
fetch failed or `total_count = 0` it reports `0` pages. -/
theorem fetch_first_page_pages (http : Nat → HttpOutcome) (save : Nat → Bool)
    (m limit : Nat) (hl : 0 < limit) :
    ((fetch_page http save m 1 0).success = true ∧
        0 < (fetch_page http save m 1 0).total_count →
      (fetch_first_page http save m limit).2 =
        ((fetch_page http save m 1 0).total_count + limit - 1) / limit ∧
      (fetch_first_page http save m limit).2 =
        ⌈((fetch_page http save m 1 0).total_count : ℚ) / (limit : ℚ)⌉₊) ∧
    (¬((fetch_page http save m 1 0).success = true ∧
        0 < (fetch_page http save m 1 0).total_count) →
      (fetch_first_page http save m limit).2 = 0) := by
  constructor
  · intro h
    simp only [fetch_first_page]
    rw [if_pos h]
    exact ⟨rfl, nat_ceil_div _ limit hl h.2⟩
  · intro h
    simp only [fetch_first_page]
    rw [if_neg h]

/-- An oracle that succeeds immediately with `total_count = 250`. -/
def httpOk250 : Nat → HttpOutcome := fun _ => HttpOutcome.ok [] 250

/-- Witness for C2: 250 listings at 100 per page give 3 pages. -/
theorem fetch_first_page_pages_witness :
    0 < 100 ∧ (fetch_first_page httpOk250 saveAlways 3 100).2 = 3 := by
  have hfp : fetch_page httpOk250 saveAlways 3 1 0 =
      { page := 1, listings := [], total_count := 250,
        success := true, db_saved := true } := by
    rw [fetch_page, fetch_page_core]
    rfl
  have h := (fetch_first_page_pages httpOk250 saveAlways 3 100 (by decide)).1
    (by rw [hfp]; exact ⟨rfl, by decide⟩)
  refine ⟨by decide, ?_⟩
  rw [h.1, hfp]
  rfl

/-! ## C3: `RateLimiter` backoff bounds -/

/-- The clamping invariant preserved by every `RateLimiter` operation when
the configuration is sane (`0 ≤ min_delay ≤ max_delay`, `1 ≤ backoff_factor`). -/
def RateLimiter.Inv (r : RateLimiter) : Prop :=
  0 ≤ r.min_delay ∧ r.min_delay ≤ r.max_delay ∧ 1 ≤ r.backoff_factor ∧
    r.min_delay ≤ r.current_delay ∧ r.current_delay ≤ r.max_delay

/-- Each operation preserves the invariant. -/
theorem RateLimiter.step_inv (r : RateLimiter) (op : RLOp) (h : r.Inv) :
    (r.step op).Inv := by
  obtain ⟨h0, hmm, hbf, hlo, hhi⟩ := h
  have hc0 : 0 ≤ r.current_delay := le_trans h0 hlo
  cases op with
  | success =>
    refine ⟨h0, hmm, hbf, le_max_left _ _, max_le hmm ?_⟩
    exact le_trans (div_le_self hc0 hbf) hhi
  | failure =>
    refine ⟨h0, hmm, hbf, le_min hmm ?_, min_le_left _ _⟩
    exact le_trans hlo (le_mul_of_one_le_right hc0 hbf)
  | rset =>
    exact ⟨h0, hmm, hbf, le_refl _, hmm⟩

/-- The invariant holds along any operation sequence. -/
theorem RateLimiter.runOps_inv (ops : List RLOp) :
    ∀ r : RateLimiter, r.Inv → (r.runOps ops).Inv := by
  induction ops with
  | nil => exact fun r h => h
  | cons op ops ih =>
    intro r h
    exact ih (r.step op) (RateLimiter.step_inv r op h)

/-- C3, amended: the claim as stated fails for negative `min_delay`
(see `RateLimiter.bounds_counterexample`); with the extra hypothesis
`0 ≤ min_delay` it holds. `record_failure` increments `failure_count` and
sets `current_delay` to `min(max_delay, current_delay * backoff_factor)`;
`record_success` zeroes `failure_count` and sets `current_delay` to
`max(min_delay, current_delay / backoff_factor)`; and along any sequence of
`record_success` / `record_failure` / `reset` calls on a limiter built with
`0 ≤ min_delay ≤ max_delay` and `backoff_factor ≥ 1`, `current_delay` stays
in `[min_delay, max_delay]`. -/
theorem RateLimiter.backoff_spec :
    (∀ r : RateLimiter,
      r.record_failure.failure_count = r.failure_count + 1 ∧
      r.record_failure.current_delay = min r.max_delay (r.current_delay * r.backoff_factor) ∧
      r.record_success.failure_count = 0 ∧
      r.record_success.current_delay = max r.min_delay (r.current_delay / r.backoff_factor)) ∧
    (∀ mn mx bf j : ℚ, 0 ≤ mn → mn ≤ mx → 1 ≤ bf → ∀ ops : List RLOp,
      mn ≤ ((RateLimiter.init mn mx bf j).runOps ops).current_delay ∧
      ((RateLimiter.init mn mx bf j).runOps ops).current_delay ≤ mx) := by
  constructor
  · intro r
    exact ⟨rfl, rfl, rfl, rfl⟩
  · intro mn mx bf j h0 hmm hbf ops
    have hfields : ((RateLimiter.init mn mx bf j).runOps ops).min_delay = mn ∧
        ((RateLimiter.init mn mx bf j).runOps ops).max_delay = mx := by
      suffices h : ∀ ops : List RLOp, ∀ r : RateLimiter,
          (r.runOps ops).min_delay = r.min_delay ∧ (r.runOps ops).max_delay = r.max_delay by
        exact h ops (RateLimiter.init mn mx bf j)
      intro ops
      induction ops with
      | nil => exact fun r => ⟨rfl, rfl⟩
      | cons op ops ih =>
        intro r
        obtain ⟨h1, h2⟩ := ih (r.step op)
        cases op <;>
          simp only [RateLimiter.runOps, List.foldl_cons] at h1 h2 ⊢ <;>
          exact ⟨h1.trans rfl, h2.trans rfl⟩
    have hinv := RateLimiter.runOps_inv ops (RateLimiter.init mn mx bf j)
      ⟨h0, hmm, hbf, le_refl _, hmm⟩
    obtain ⟨_, _, _, hlo, hhi⟩ := hinv
    rw [hfields.1] at hlo
    rw [hfields.2] at hhi
    exact ⟨hlo, hhi⟩

/-- Counterexample to C3 as stated: with `min_delay = -2 ≤ max_delay = 0`
and `backoff_factor = 2 ≥ 1` (but a negative `min_delay`), a single
`record_failure` drives `current_delay` to `-4`, strictly below
`min_delay`. -/
theorem RateLimiter.bounds_counterexample :
    (-2 : ℚ) ≤ 0 ∧ (1 : ℚ) ≤ 2 ∧
      ((RateLimiter.init (-2) 0 2 (1/2)).runOps [RLOp.failure]).current_delay <
        ((RateLimiter.init (-2) 0 2 (1/2)).runOps [RLOp.failure]).min_delay := by
  refine ⟨by norm_num, by norm_num, ?_⟩
  show ((RateLimiter.init (-2) 0 2 (1/2)).record_failure).current_delay <
    ((RateLimiter.init (-2) 0 2 (1/2)).record_failure).min_delay
  simp only [RateLimiter.init, RateLimiter.record_failure]
  norm_num

/-- Witness for the amended C3 at a concrete configuration and sequence. -/
theorem RateLimiter.backoff_spec_witness :
    (1 : ℚ) ≤ ((RateLimiter.init 1 60 2 (1/2)).runOps
        [RLOp.failure, RLOp.failure, RLOp.success]).current_delay ∧
      ((RateLimiter.init 1 60 2 (1/2)).runOps
        [RLOp.failure, RLOp.failure, RLOp.success]).current_delay ≤ 60 := by
  have h := RateLimiter.backoff_spec.2 1 60 2 (1/2) (by norm_num) (by norm_num)
    (by norm_num) [RLOp.failure, RLOp.failure, RLOp.success]
  exact h

/-! ## C4: `CircuitBreaker` state transitions -/

/-- Along an `__enter__`-free call sequence, the failure count accumulates
via `countAfter` and the state is `"open"` exactly when it has reached the
threshold, provided the threshold is at least 1 and the starting state
already satisfies that characterisation. -/
theorem CircuitBreaker.run_count_spec (thr : Nat) (hthr : 1 ≤ thr) :
    ∀ ops : List CBOp, CBOp.noEnter ops → ∀ cb : CircuitBreaker,
      cb.failure_threshold = thr →
      (cb.state = "open".data ↔ thr ≤ cb.failure_count) →
      (cb.state = "closed".data ∨ cb.state = "open".data) →
      (cb.runOps ops).failure_count = CBOp.countAfter cb.failure_count ops ∧
      ((cb.runOps ops).state = "open".data ↔ thr ≤ CBOp.countAfter cb.failure_count ops) ∧
      ((cb.runOps ops).state = "closed".data ∨ (cb.runOps ops).state = "open".data) := by
  intro ops
  induction ops with
  | nil =>
    intro _ cb _ hiff hcs
    exact ⟨rfl, hiff, hcs⟩
  | cons op ops ih =>
    intro hne cb hth hiff hcs
    cases op with
    | fail t =>
      have hrun : cb.runOps (CBOp.fail t :: ops) = (cb.record_failure t).runOps ops := rfl
      have hcount : CBOp.countAfter cb.failure_count (CBOp.fail t :: ops) =
        CBOp.countAfter (cb.failure_count + 1) ops := rfl
      have hst : (cb.record_failure t).state =
          (if thr ≤ cb.failure_count + 1 then "open".data else cb.state) := by
        rw [show (cb.record_failure t).state =
          (if cb.failure_threshold ≤ cb.failure_count + 1 then "open".data else cb.state)
          from rfl, hth]
      rw [hrun, hcount]
      apply ih (by exact hne) (cb.record_failure t) hth
      · rw [hst, show (cb.record_failure t).failure_count = cb.failure_count + 1 from rfl]
        by_cases h : thr ≤ cb.failure_count + 1
        · simp [h]
        · rw [if_neg h]
          constructor
          · intro hopen
            exact absurd (hiff.mp hopen) (by omega)
          · intro hle
            omega
      · rw [hst]
        by_cases h : thr ≤ cb.failure_count + 1
        · rw [if_pos h]
          exact Or.inr rfl
        · rw [if_neg h]
          exact hcs
    | succ =>
      have hrun : cb.runOps (CBOp.succ :: ops) = cb.record_success.runOps ops := rfl
      have hcount : CBOp.countAfter cb.failure_count (CBOp.succ :: ops) =
        CBOp.countAfter 0 ops := rfl
      rw [hrun, hcount]
      apply ih (by exact hne) cb.record_success hth
      · rw [show cb.record_success.state = "closed".data from rfl,
          show cb.record_success.failure_count = 0 from rfl]
        constructor
        · intro h
          exact absurd h (by decide)
        · intro h
          omega
      · exact Or.inl rfl
    | rset =>
      have hrun : cb.runOps (CBOp.rset :: ops) = cb.reset.runOps ops := rfl
      have hcount : CBOp.countAfter cb.failure_count (CBOp.rset :: ops) =
        CBOp.countAfter 0 ops := rfl
      rw [hrun, hcount]
      apply ih (by exact hne) cb.reset hth
      · rw [show cb.reset.state = "closed".data from rfl,
          show cb.reset.failure_count = 0 from rfl]
        constructor
        · intro h
          exact absurd h (by decide)
        · intro h
          omega
      · exact Or.inl rfl
    | enter now =>
      exact absurd hne (by simp [CBOp.noEnter])

/-- Every operation keeps the state within the three-valued set. -/
theorem CircuitBreaker.step_states (cb : CircuitBreaker) (op : CBOp)
    (h : cb.state = "closed".data ∨ cb.state = "open".data ∨ cb.state = "half-open".data) :
    (cb.step op).state = "closed".data ∨ (cb.step op).state = "open".data ∨
      (cb.step op).state = "half-open".data := by
  cases op with
  | fail t =>
    have hs : (cb.step (CBOp.fail t)).state =
        (if cb.failure_threshold ≤ cb.failure_count + 1 then "open".data else cb.state) := rfl
    rw [hs]
    by_cases hc : cb.failure_threshold ≤ cb.failure_count + 1
    · rw [if_pos hc]
      exact Or.inr (Or.inl rfl)
    · rw [if_neg hc]
      exact h
  | succ => exact Or.inl rfl
  | rset => exact Or.inl rfl
  | enter now =>
    have hs : cb.step (CBOp.enter now) = (cb.enter now).getD cb := rfl
    rw [hs, CircuitBreaker.enter]
    by_cases hopen : cb.state = "open".data
    · rw [if_pos hopen]
      by_cases hrec : CircuitBreaker.can_attempt_recovery now cb = true
      · rw [if_pos hrec]
        exact Or.inr (Or.inr rfl)
      · rw [if_neg hrec]
        exact h
    · rw [if_neg hopen]
      exact h

/-- C4, amended: the claim as stated fails for `failure_threshold = 0`
(see `CircuitBreaker.open_iff_counterexample`, where a fresh breaker has
been through `0 ≥ failure_threshold` failures yet is `"closed"`); for every
`failure_threshold ≥ 1` it holds. Starting from a fresh breaker, along any
sequence of `record_failure` / `record_success` / `reset` calls the state
is `"open"` exactly when the number of `record_failure` calls since the
last `record_success`/`reset` (or from the start) has reached the
threshold; `record_success` always zeroes the count and closes the breaker;
and along arbitrary call sequences (`__enter__` included) the state is one
of `"closed"`, `"open"`, `"half-open"`. -/
theorem CircuitBreaker.open_iff_threshold (thr : Nat) (hthr : 1 ≤ thr) (rt : ℚ) :
    (∀ ops : List CBOp, CBOp.noEnter ops →
      ((CircuitBreaker.runFresh thr rt ops).state = "open".data ↔
        thr ≤ CBOp.failsSinceClear ops)) ∧
    (∀ cb : CircuitBreaker,
      cb.record_success.failure_count = 0 ∧ cb.record_success.state = "closed".data) ∧
    (∀ ops : List CBOp, (CircuitBreaker.runFresh thr rt ops).state = "closed".data ∨
      (CircuitBreaker.runFresh thr rt ops).state = "open".data ∨
      (CircuitBreaker.runFresh thr rt ops).state = "half-open".data) := by
  refine ⟨?_, fun cb => ⟨rfl, rfl⟩, ?_⟩
  · intro ops hne
    have h := CircuitBreaker.run_count_spec thr hthr ops hne
      (CircuitBreaker.init thr rt) rfl ?_ (Or.inl rfl)
    · exact h.2.1
    · rw [show (CircuitBreaker.init thr rt).state = "closed".data from rfl,
        show (CircuitBreaker.init thr rt).failure_count = 0 from rfl]
      constructor
      · intro h
        exact absurd h (by decide)
      · intro h
        omega
  · intro ops
    rw [CircuitBreaker.runFresh]
    induction ops using List.reverseRecOn with
    | nil => exact Or.inl rfl
    | append_singleton ops op ih =>
      rw [CircuitBreaker.runOps, List.foldl_append, List.foldl_cons, List.foldl_nil]
      exact CircuitBreaker.step_states _ op ih

/-- Counterexample to C4 as stated: with `failure_threshold = 0`, a fresh
breaker has already seen `0 ≥ failure_threshold` failures since the start,
yet its state is `"closed"`, not `"open"`. -/
theorem CircuitBreaker.open_iff_counterexample :
    ¬ ((CircuitBreaker.runFresh 0 60 []).state = "open".data ↔
        0 ≤ CBOp.failsSinceClear ([] : List CBOp)) := by
  intro h
  have h2 : (CircuitBreaker.runFresh 0 60 []).state = "open".data := h.mpr (Nat.zero_le _)
  have h3 : ("closed".data : List Char) = "open".data := h2
  exact absurd h3 (by decide)

/-- Witness for the amended C4: threshold 2, two failures open the breaker. -/
theorem CircuitBreaker.open_iff_threshold_witness :
    (CircuitBreaker.runFresh 2 60 [CBOp.fail 0, CBOp.fail 1]).state = "open".data := by
  exact ((CircuitBreaker.open_iff_threshold 2 (by omega) 60).1
    [CBOp.fail 0, CBOp.fail 1] trivial).mpr (by decide)

/-! ## C5: `CircuitBreaker.__enter__` -/

/-- C5. `__enter__` raises `CircuitBreakerOpenError` (returns `none`) iff
the state is `"open"` and the time since the recorded `last_failure_time`
is strictly less than `recovery_timeout`; when the state is `"open"` but
recovery is allowed (timeout elapsed, or no failure ever recorded) it
flips the state to `"half-open"`; in any other state it returns the
breaker unchanged. -/
theorem CircuitBreaker.enter_spec (cb : CircuitBreaker) (now : ℚ) :
    (cb.enter now = none ↔ cb.state = "open".data ∧
      ∃ t, cb.last_failure_time = some t ∧ now - t < cb.recovery_timeout) ∧
    (cb.state = "open".data → CircuitBreaker.can_attempt_recovery now cb = true →
      cb.enter now = some { cb with state := "half-open".data }) ∧
    (cb.state ≠ "open".data → cb.enter now = some cb) := by
  have hrec : CircuitBreaker.can_attempt_recovery now cb = false ↔
      ∃ t, cb.last_failure_time = some t ∧ now - t < cb.recovery_timeout := by
    rw [CircuitBreaker.can_attempt_recovery]
    cases hl : cb.last_failure_time with
    | none => simp
    | some t => simp [decide_eq_false_iff_not, not_le]
  refine ⟨?_, ?_, ?_⟩
  · rw [CircuitBreaker.enter]
    by_cases hopen : cb.state = "open".data
    · rw [if_pos hopen]
      by_cases hcan : CircuitBreaker.can_attempt_recovery now cb = true
      · rw [if_pos hcan]
        simp only [reduceCtorEq, false_iff, not_and]
        intro _
        rw [← hrec]
        simp [hcan]
      · rw [if_neg hcan]
        simp only [true_iff]
        exact ⟨hopen, hrec.mp (Bool.eq_false_iff.mpr hcan)⟩
    · rw [if_neg hopen]
      simp only [reduceCtorEq, false_iff, not_and]
      intro h
      exact absurd h hopen
  · intro hopen hcan
    rw [CircuitBreaker.enter, if_pos hopen, if_pos hcan]
  · intro hopen
    rw [CircuitBreaker.enter, if_neg hopen]

/-- Witness for C5: an open breaker whose failure happened 5 seconds ago
with a 60-second recovery timeout raises on `__enter__`. -/
theorem CircuitBreaker.enter_spec_witness :
    CircuitBreaker.enter 5
      { failure_threshold := 5, recovery_timeout := 60, failure_count := 5,
        last_failure_time := some 0, state := "open".data } = none := by
  exact (CircuitBreaker.enter_spec
    { failure_threshold := 5, recovery_timeout := 60, failure_count := 5,
      last_failure_time := some 0, state := "open".data } 5).1.mpr
    ⟨rfl, 0, rfl, by norm_num⟩

/-! ## Helper lemmas: `pyStrip` and character classes -/

theorem mem_dropWhile_of_neg {p : Char → Bool} {c : Char} :
    ∀ {l : List Char}, c ∈ l → p c = false → c ∈ l.dropWhile p := by
  intro l
  induction l with
  | nil => intro h _; exact absurd h (List.not_mem_nil c)
  | cons a l ih =>
    intro hm hp
    by_cases ha : p a = true
    · rw [List.dropWhile_cons_of_pos ha]
      rcases List.mem_cons.mp hm with rfl | hm2
      · rw [hp] at ha
        exact absurd ha (by simp)
      · exact ih hm2 hp
    · rw [List.dropWhile_cons_of_neg ha]
      exact hm

theorem dropWhile_idem (p : Char → Bool) (l : List Char) :
    (l.dropWhile p).dropWhile p = l.dropWhile p := by
  induction l with
  | nil => rfl
  | cons a l ih =>
    by_cases ha : p a = true
    · rw [List.dropWhile_cons_of_pos ha]
      exact ih
    · rw [List.dropWhile_cons_of_neg ha, List.dropWhile_cons_of_neg ha]

theorem dropWhile_append_last {p : Char → Bool} {a : Char} (ha : p a = false)
    (xs : List Char) : (xs ++ [a]).dropWhile p = xs.dropWhile p ++ [a] := by
  induction xs with
  | nil => simp [List.dropWhile_cons, ha]
  | cons x xs ih =>
    by_cases hx : p x = true
    · rw [List.cons_append, List.dropWhile_cons_of_pos hx, ih, List.dropWhile_cons_of_pos hx]
    · rw [List.cons_append, List.dropWhile_cons_of_neg hx, List.dropWhile_cons_of_neg hx,
        List.cons_append]

theorem pyStripRight_cons {x : Char} (hx : isSpaceChar x = false) (r : List Char) :
    pyStripRight (x :: r) = x :: pyStripRight r := by
  rw [pyStripRight, pyStripRight, List.reverse_cons, dropWhile_append_last hx,
    List.reverse_append]
  rfl

theorem pyStripRight_idem (l : List Char) : pyStripRight (pyStripRight l) = pyStripRight l := by
  rw [show pyStripRight (pyStripRight l) =
      ((l.reverse.dropWhile isSpaceChar).reverse.reverse.dropWhile isSpaceChar).reverse from rfl,
    List.reverse_reverse, dropWhile_idem]
  rfl

theorem pyStripRight_dropWhile {l : List Char} (h : l.dropWhile isSpaceChar = l) :
    (pyStripRight l).dropWhile isSpaceChar = pyStripRight l := by
  cases l with
  | nil => rfl
  | cons c t =>
    have hc : isSpaceChar c = false := by
      cases hcc : isSpaceChar c with
      | false => rfl
      | true =>
        rw [List.dropWhile_cons_of_pos hcc] at h
        have hlen := congrArg List.length h
        have hle := List.Sublist.length_le (@List.dropWhile_sublist _ t isSpaceChar)
        simp only [List.length_cons] at hlen
        omega
    rw [pyStripRight_cons hc, List.dropWhile_cons_of_neg (by simp [hc])]

theorem pyStrip_idem (l : List Char) : pyStrip (pyStrip l) = pyStrip l := by
  show pyStripRight ((pyStripRight (l.dropWhile isSpaceChar)).dropWhile isSpaceChar)
    = pyStripRight (l.dropWhile isSpaceChar)
  rw [pyStripRight_dropWhile (dropWhile_idem isSpaceChar l), pyStripRight_idem]

theorem pyStripRight_sublist (l : List Char) : (pyStripRight l).Sublist l := by
  have h2 := (@List.dropWhile_sublist _ l.reverse isSpaceChar).reverse
  rwa [List.reverse_reverse] at h2

theorem pyStrip_sublist (l : List Char) : (pyStrip l).Sublist l :=
  (pyStripRight_sublist _).trans (@List.dropWhile_sublist _ l isSpaceChar)

theorem all_of_sublist {q : Char → Bool} {l₁ l₂ : List Char}
    (hs : l₁.Sublist l₂) (h : l₂.all q = true) : l₁.all q = true := by
  rw [List.all_eq_true] at h ⊢
  exact fun x hx => h x (hs.subset hx)

theorem pyStrip_eq_self {l : List Char} (h : ∀ c ∈ l, isSpaceChar c = false) :
    pyStrip l = l := by
  have h1 : l.dropWhile isSpaceChar = l := by
    cases l with
    | nil => rfl
    | cons c t => exact List.dropWhile_cons_of_neg (by simp [h c (List.mem_cons_self c t)])
  have h2 : l.reverse.dropWhile isSpaceChar = l.reverse := by
    cases hr : l.reverse with
    | nil => rfl
    | cons c t =>
      refine List.dropWhile_cons_of_neg ?_
      have hcm : c ∈ l := by
        rw [← List.mem_reverse, hr]
        exact List.mem_cons_self c t
      simp [h c hcm]
  rw [pyStrip, h1, pyStripRight, h2, List.reverse_reverse]

theorem mem_pyStrip_of_nonspace {c : Char} (hns : isSpaceChar c = false) {l : List Char}
    (hmem : c ∈ l) : c ∈ pyStrip l := by
  rw [pyStrip, pyStripRight, List.mem_reverse]
  exact mem_dropWhile_of_neg (List.mem_reverse.mpr (mem_dropWhile_of_neg hmem hns)) hns

theorem isSpaceChar_le {c : Char} (h : isSpaceChar c = true) : c.toNat ≤ 32 := by
  simp only [isSpaceChar, Bool.or_eq_true, Bool.and_eq_true, decide_eq_true_eq,
    beq_iff_eq] at h
  omega

theorem notSpace_of_ge {c : Char} (h : 33 ≤ c.toNat) : isSpaceChar c = false := by
  cases hb : isSpaceChar c with
  | false => rfl
  | true =>
    have := isSpaceChar_le hb
    omega

theorem alpha_ge {c : Char} (h : isAlphaChar c = true) : 65 ≤ c.toNat := by
  simp only [isAlphaChar, Bool.or_eq_true, Bool.and_eq_true, decide_eq_true_eq] at h
  omega

theorem alpha_not_space {c : Char} (h : isAlphaChar c = true) : isSpaceChar c = false :=
  notSpace_of_ge (by have := alpha_ge h; omega)

theorem alpha_not_digit {c : Char} (h : isAlphaChar c = true) : isDigitChar c = false := by
  simp only [isAlphaChar, Bool.or_eq_true, Bool.and_eq_true, decide_eq_true_eq] at h
  cases hb : isDigitChar c with
  | false => rfl
  | true =>
    simp only [isDigitChar, Bool.and_eq_true, decide_eq_true_eq] at hb
    omega

theorem alpha_ne_dash {c : Char} (h : isAlphaChar c = true) : (c == '-') = false := by
  cases hb : c == '-' with
  | false => rfl
  | true =>
    have hc : c = '-' := eq_of_beq hb
    subst hc
    exact absurd h (by decide)

theorem local_ge {c : Char} (h : isLocalChar c = true) : 37 ≤ c.toNat := by
  simp only [isLocalChar, isAlphaChar, isDigitChar, Bool.or_eq_true, Bool.and_eq_true,
    decide_eq_true_eq, beq_iff_eq] at h
  rcases h with ((((((h | h) | h) | h) | h) | h) | h)
  · omega
  · omega
  · subst h; decide
  · subst h; decide
  · subst h; decide
  · subst h; decide
  · subst h; decide

theorem local_not_space {c : Char} (h : isLocalChar c = true) : isSpaceChar c = false :=
  notSpace_of_ge (by have := local_ge h; omega)

theorem domain_ge {c : Char} (h : isDomainChar c = true) : 45 ≤ c.toNat := by
  simp only [isDomainChar, isAlphaChar, isDigitChar, Bool.or_eq_true, Bool.and_eq_true,
    decide_eq_true_eq, beq_iff_eq] at h
  rcases h with (((h | h) | h) | h)
  · omega
  · omega
  · subst h; decide
  · subst h; decide

theorem domain_not_space {c : Char} (h : isDomainChar c = true) : isSpaceChar c = false :=
  notSpace_of_ge (by have := domain_ge h; omega)

theorem space_isPhoneClass {c : Char} (h : isSpaceChar c = true) : isPhoneClassChar c = true := by
  simp [isPhoneClassChar, h]

theorem phoneClass_ne_plus {c : Char} (h : isPhoneClassChar c = true) : (c == '+') = false := by
  cases hb : c == '+' with
  | false => rfl
  | true =>
    have hc : c = '+' := eq_of_beq hb
    subst hc
    exact absurd h (by decide)

/-! ## C6: `validate_rera` -/

/-- C6. `validate_rera` accepts exactly the inputs that are strings whose
stripped form is a nonempty sequence of decimal digits and dashes; it
rejects `None`, the empty string, and any string containing a letter. -/
theorem validate_rera_spec :
    validate_rera none = false ∧
    validate_rera (some []) = false ∧
    (∀ s : List Char, validate_rera (some s) = true ↔
      (pyStrip s ≠ [] ∧ ∀ c ∈ pyStrip s, (isDigitChar c || c == '-') = true)) ∧
    (∀ s : List Char, ∀ c ∈ s, isAlphaChar c = true → validate_rera (some s) = false) := by
  refine ⟨rfl, rfl, ?_, ?_⟩
  · intro s
    by_cases hs : s = []
    · subst hs
      constructor
      · intro h
        exact absurd h (by decide)
      · rintro ⟨h1, _⟩
        exact absurd rfl h1
    · rw [validate_rera, if_neg hs, Bool.and_eq_true, List.all_eq_true]
      constructor
      · rintro ⟨h1, h2⟩
        refine ⟨?_, h2⟩
        intro hnil
        rw [hnil] at h1
        exact absurd h1 (by decide)
      · rintro ⟨h1, h2⟩
        refine ⟨?_, h2⟩
        cases hq : (pyStrip s).isEmpty with
        | false => rfl
        | true => exact absurd (List.isEmpty_iff.mp hq) h1
  · intro s c hc halpha
    have hsne : s ≠ [] := by
      intro h
      subst h
      exact absurd hc (List.not_mem_nil c)
    have hall : (pyStrip s).all (fun c => isDigitChar c || c == '-') = false := by
      rw [List.all_eq_false]
      refine ⟨c, mem_pyStrip_of_nonspace (alpha_not_space halpha) hc, ?_⟩
      simp [alpha_not_digit halpha, alpha_ne_dash halpha]
    rw [validate_rera, if_neg hsne]
    show (!(pyStrip s).isEmpty && (pyStrip s).all fun c => isDigitChar c || c == '-') = false
    rw [hall, Bool.and_false]

/-- Witness for C6: valid and invalid concrete RERA strings. -/
theorem validate_rera_spec_witness :
    validate_rera (some "ABC-123".data) = false ∧
    validate_rera (some "254-1234".data) = true := by
  constructor
  · exact validate_rera_spec.2.2.2 "ABC-123".data 'A' (by decide) (by decide)
  · exact (validate_rera_spec.2.2.1 "254-1234".data).mpr (by decide)

/-! ## C7: `extract_owner_details` deduplication and order -/

/-- First-occurrence deduplication with empties removed: the structural
form of the `if x and x not in acc: acc.append(x)` loop. -/
def dedupKeepFirst : List (List Char) → List (List Char)
  | [] => []
  | x :: xs =>
    if x = [] then dedupKeepFirst xs
    else x :: (dedupKeepFirst xs).filter (fun y => y ≠ x)

/-- The accumulator loop computes `dedupKeepFirst` filtered by what the
accumulator already holds. -/
theorem pyDedup_eq (l : List (List Char)) :
    ∀ acc, pyDedup acc l = acc ++ (dedupKeepFirst l).filter (fun y => decide (y ∉ acc)) := by
  induction l with
  | nil =>
    intro acc
    simp [pyDedup, dedupKeepFirst]
  | cons x xs ih =>
    intro acc
    by_cases hx : x = []
    · rw [pyDedup, if_neg (by simp [hx]), ih acc, dedupKeepFirst, if_pos hx]
    · by_cases hmem : x ∈ acc
      · rw [pyDedup, if_neg (by simp [hmem]), ih acc, dedupKeepFirst, if_neg hx,
          List.filter_cons]
        rw [show (decide (x ∉ acc)) = false from by simp [hmem], if_neg (by simp)]
        congr 1
        rw [List.filter_filter]
        refine List.filter_congr ?_
        intro y hy
        by_cases hya : y ∈ acc
        · simp [hya]
        · have hyx : y ≠ x := fun h => hya (h ▸ hmem)
          simp [hya, hyx]
      · rw [pyDedup, if_pos ⟨hx, hmem⟩, ih (acc ++ [x]), dedupKeepFirst, if_neg hx,
          List.filter_cons]
        rw [show (decide (x ∉ acc)) = true from by simp [hmem], if_pos (by simp [hmem])]
        rw [List.append_assoc, List.singleton_append]
        congr 2
        rw [List.filter_filter]
        refine (List.filter_congr ?_).symm
        intro y hy
        by_cases h1 : y = x
        · subst h1
          simp
        · by_cases h2 : y ∈ acc
          · simp [h1, h2]
          · simp [h1, h2]

/-- With an empty accumulator the loop is exactly `dedupKeepFirst`. -/
theorem pyDedup_nil (l : List (List Char)) : pyDedup [] l = dedupKeepFirst l := by
  rw [pyDedup_eq l []]
  simp

/-- Elements produced by the dedup loop come from the input and are
nonempty. -/
theorem mem_dedupKeepFirst {y : List Char} :
    ∀ {l : List (List Char)}, y ∈ dedupKeepFirst l → y ∈ l ∧ y ≠ [] := by
  intro l
  induction l with
  | nil => intro h; exact absurd h (List.not_mem_nil y)
  | cons x xs ih =>
    intro h
    by_cases hx : x = []
    · rw [dedupKeepFirst, if_pos hx] at h
      obtain ⟨h1, h2⟩ := ih h
      exact ⟨List.mem_cons_of_mem x h1, h2⟩
    · rw [dedupKeepFirst, if_neg hx] at h
      rcases List.mem_cons.mp h with rfl | h2
      · exact ⟨List.mem_cons_self y xs, hx⟩
      · obtain ⟨h3, h4⟩ := ih (List.mem_of_mem_filter h2)
        exact ⟨List.mem_cons_of_mem x h3, h4⟩

/-- The dedup loop never emits duplicates. -/
theorem dedupKeepFirst_nodup : ∀ l : List (List Char), (dedupKeepFirst l).Nodup := by
  intro l
  induction l with
  | nil => exact List.nodup_nil
  | cons x xs ih =>
    by_cases hx : x = []
    · rw [dedupKeepFirst, if_pos hx]
      exact ih
    · rw [dedupKeepFirst, if_neg hx]
      rw [List.nodup_cons]
      constructor
      · intro hmem
        have := List.of_mem_filter hmem
        simp at this
      · exact List.Nodup.filter _ ih

theorem indexOf_cons_self_beq (a : List Char) (l : List (List Char)) :
    (a :: l).indexOf a = 0 := by
  rw [List.indexOf, List.findIdx_cons]
  simp

theorem indexOf_cons_ne_beq {a b : List Char} (l : List (List Char)) (h : b ≠ a) :
    (b :: l).indexOf a = l.indexOf a + 1 := by
  rw [List.indexOf, List.findIdx_cons]
  have hb : (b == a) = false := by
    simp [h]
  rw [hb]
  rfl

/-- The dedup loop emits entries ordered by first occurrence (`indexOf`)
in its input list. -/
theorem dedupKeepFirst_pairwise : ∀ l : List (List Char),
    (dedupKeepFirst l).Pairwise (fun a b => l.indexOf a < l.indexOf b) := by
  intro l
  induction l with
  | nil => exact List.Pairwise.nil
  | cons x xs ih =>
    by_cases hx : x = []
    · rw [dedupKeepFirst, if_pos hx]
      refine (List.Pairwise.imp_of_mem ?_ ih)
      intro a b ha hb hab
      have hax : a ≠ x := fun h => (mem_dedupKeepFirst ha).2 (h.trans hx)
      have hbx : b ≠ x := fun h => (mem_dedupKeepFirst hb).2 (h.trans hx)
      rw [indexOf_cons_ne_beq _ (fun h => hax h.symm),
        indexOf_cons_ne_beq _ (fun h => hbx h.symm)]
      omega
    · rw [dedupKeepFirst, if_neg hx]
      rw [List.pairwise_cons]
      constructor
      · intro b hb
        have hbx : b ≠ x := by
          have := List.of_mem_filter hb
          simpa using this
        rw [indexOf_cons_self_beq, indexOf_cons_ne_beq _ (fun h => hbx h.symm)]
        omega
      · refine List.Pairwise.imp_of_mem ?_ ((ih.filter (fun y => y ≠ x)))
        intro a b ha hb hab
        have hax : a ≠ x := by
          have := List.of_mem_filter ha
          simpa using this
        have hbx : b ≠ x := by
          have := List.of_mem_filter hb
          simpa using this
        rw [indexOf_cons_ne_beq _ (fun h => hax h.symm),
          indexOf_cons_ne_beq _ (fun h => hbx h.symm)]
        omega

/-- C7. Each of the three lists returned by `extract_owner_details` is
duplicate-free, and its entries are ordered by the position of their first
occurrence among the processed regex matches of the newline-joined text
(the scanners emit matches in increasing text position). -/
theorem extract_owner_details_dedup (responses_text : List (List Char)) :
    ((extract_owner_details responses_text).1.Nodup ∧
      (extract_owner_details responses_text).1.Pairwise (fun a b =>
        (name_entries (joinNL responses_text)).indexOf a <
          (name_entries (joinNL responses_text)).indexOf b)) ∧
    ((extract_owner_details responses_text).2.1.Nodup ∧
      (extract_owner_details responses_text).2.1.Pairwise (fun a b =>
        (phone_entries (joinNL responses_text)).indexOf a <
          (phone_entries (joinNL responses_text)).indexOf b)) ∧
    ((extract_owner_details responses_text).2.2.Nodup ∧
      (extract_owner_details responses_text).2.2.Pairwise (fun a b =>
        (email_entries (joinNL responses_text)).indexOf a <
          (email_entries (joinNL responses_text)).indexOf b)) := by
  refine ⟨⟨?_, ?_⟩, ⟨?_, ?_⟩, ⟨?_, ?_⟩⟩ <;>
    rw [show extract_owner_details responses_text =
      (pyDedup [] (name_entries (joinNL responses_text)),
       pyDedup [] (phone_entries (joinNL responses_text)),
       pyDedup [] (email_entries (joinNL responses_text))) from rfl]
  · rw [show (pyDedup [] (name_entries (joinNL responses_text)), pyDedup [] (phone_entries (joinNL responses_text)), pyDedup [] (email_entries (joinNL responses_text))).1 = pyDedup [] (name_entries (joinNL responses_text)) from rfl, pyDedup_nil]
    exact dedupKeepFirst_nodup _
  · rw [show (pyDedup [] (name_entries (joinNL responses_text)), pyDedup [] (phone_entries (joinNL responses_text)), pyDedup [] (email_entries (joinNL responses_text))).1 = pyDedup [] (name_entries (joinNL responses_text)) from rfl, pyDedup_nil]
    exact dedupKeepFirst_pairwise _
  · rw [show (pyDedup [] (name_entries (joinNL responses_text)), pyDedup [] (phone_entries (joinNL responses_text)), pyDedup [] (email_entries (joinNL responses_text))).2.1 = pyDedup [] (phone_entries (joinNL responses_text)) from rfl, pyDedup_nil]
    exact dedupKeepFirst_nodup _
  · rw [show (pyDedup [] (name_entries (joinNL responses_text)), pyDedup [] (phone_entries (joinNL responses_text)), pyDedup [] (email_entries (joinNL responses_text))).2.1 = pyDedup [] (phone_entries (joinNL responses_text)) from rfl, pyDedup_nil]
    exact dedupKeepFirst_pairwise _
  · rw [show (pyDedup [] (name_entries (joinNL responses_text)), pyDedup [] (phone_entries (joinNL responses_text)), pyDedup [] (email_entries (joinNL responses_text))).2.2 = pyDedup [] (email_entries (joinNL responses_text)) from rfl, pyDedup_nil]
    exact dedupKeepFirst_nodup _
  · rw [show (pyDedup [] (name_entries (joinNL responses_text)), pyDedup [] (phone_entries (joinNL responses_text)), pyDedup [] (email_entries (joinNL responses_text))).2.2 = pyDedup [] (email_entries (joinNL responses_text)) from rfl, pyDedup_nil]
    exact dedupKeepFirst_pairwise _

/-! ## C8: `has_owner_details` vs `has_owner_details_response` -/

/-- Counterexample to C8 as stated: a single response containing both the
unavailable message and an owner-details block marker. `has_owner_details`
tests the marker first and returns `True`; `has_owner_details_response`
tests the unavailable message first and returns `(False, True)`. -/
theorem has_owner_details_counterexample :
    has_owner_details ["❌ Owner details unavailable\nOwner details: X".data] = true ∧
    (has_owner_details_response
      ["❌ Owner details unavailable\nOwner details: X".data]).1 = false := by
  constructor
  · decide
  · decide

/-- C8, amended: the claim as stated fails when a text contains both the
unavailable marker and an owner-details indicator (see
`has_owner_details_counterexample`, forced by the two functions testing the
markers in opposite order); provided no response text, once stripped and
lowercased, contains the unavailable message, `has_owner_details` agrees
with the first component of `has_owner_details_response`. -/
theorem has_owner_details_agrees (texts : List (List Char))
    (h : ∀ t ∈ texts, hasUnavailableMarker (lowerL (pyStrip t)) = false) :
    has_owner_details texts = (has_owner_details_response texts).1 := by
  induction texts with
  | nil => rfl
  | cons text rest ih =>
    have hrest : ∀ t ∈ rest, hasUnavailableMarker (lowerL (pyStrip t)) = false :=
      fun t ht => h t (List.mem_cons_of_mem _ ht)
    have ht := h text (List.mem_cons_self text rest)
    by_cases he : text = []
    · simp only [has_owner_details, has_owner_details_response, if_pos he]
      exact ih hrest
    · cases hm : hasOwnerMarker (lowerL (pyStrip text)) with
      | true => simp [has_owner_details, has_owner_details_response, he, hm, ht]
      | false =>
        cases hf : hasNamePhoneFields (pyStrip text) with
        | true => simp [has_owner_details, has_owner_details_response, he, hm, hf, ht]
        | false =>
          simp only [has_owner_details, has_owner_details_response, if_neg he, hm, hf, ht]
          simp only [Bool.false_eq_true, if_false]
          exact ih hrest

/-- Witness for the amended C8 at a concrete response list. -/
theorem has_owner_details_agrees_witness :
    has_owner_details ["Name: Bob\nPhone: 12345".data] =
      (has_owner_details_response ["Name: Bob\nPhone: 12345".data]).1 := by
  exact has_owner_details_agrees ["Name: Bob\nPhone: 12345".data] (by decide)

/-! ## C9: extracted phones/emails vs `validate_phone`/`validate_email` -/

theorem all_takeWhile (p : Char → Bool) (l : List Char) : (l.takeWhile p).all p = true := by
  rw [List.all_eq_true]
  exact fun x hx => List.mem_takeWhile_imp hx

theorem take_takeWhile_length (p : Char → Bool) :
    ∀ l : List Char, l.take (l.takeWhile p).length = l.takeWhile p := by
  intro l
  induction l with
  | nil => rfl
  | cons a l ih =>
    by_cases ha : p a = true
    · rw [List.takeWhile_cons_of_pos ha, List.length_cons, List.take_succ_cons, ih]
    · rw [List.takeWhile_cons_of_neg ha, List.length_nil, List.take_zero]

/-- Every string emitted by a `scanCore` scan is produced by a successful
attempt at some position. -/
theorem scanCore_mem {tryAt : List Char → Option (List Char × List Char)} :
    ∀ {fuel : Nat} {cs g : List Char}, g ∈ scanCore tryAt fuel cs →
      ∃ cs2 rest, tryAt cs2 = some (g, rest) := by
  intro fuel
  induction fuel with
  | zero =>
    intro cs g h
    exact absurd h (List.not_mem_nil g)
  | succ fuel ih =>
    intro cs g h
    cases cs with
    | nil => exact absurd h (List.not_mem_nil g)
    | cons c cs =>
      rw [scanCore] at h
      cases htry : tryAt (c :: cs) with
      | none =>
        simp only [htry] at h
        exact ih h
      | some pr =>
        obtain ⟨g2, rest2⟩ := pr
        simp only [htry] at h
        rcases List.mem_cons.mp h with rfl | h2
        · exact ⟨c :: cs, rest2, htry⟩
        · exact ih h2

/-- The group after the optional `+` of the phone pattern. -/
def phoneTail : List Char → List Char
  | '+' :: r => r
  | r => r

theorem pyStrip_cons_plus (r : List Char) : pyStrip ('+' :: r) = '+' :: pyStripRight r := by
  rw [pyStrip, List.dropWhile_cons_of_neg (by decide), pyStripRight_cons (by decide)]

/-- A backtracked phone group consists of borrowed whitespace followed by
the class run, hence is made of class characters only. -/
theorem phoneBacktrack_shape {w run t4 g rest : List Char}
    (hw : ∀ c ∈ w, isSpaceChar c = true) (hrun : run.all isPhoneClassChar = true)
    (h : phoneBacktrack w run t4 = some (g, rest)) : g.all isPhoneClassChar = true := by
  rw [phoneBacktrack] at h
  split at h
  · have hg : w.drop (w.length - (6 - run.length)) ++ run = g := by
      have := congrArg Prod.fst (Option.some.inj h)
      simpa using this
    rw [← hg, List.all_append, Bool.and_eq_true]
    refine ⟨?_, hrun⟩
    rw [List.all_eq_true]
    intro x hx
    exact space_isPhoneClass (hw x (List.drop_subset _ _ hx))
  · exact absurd h (by simp)

/-- Shape of a captured phone group: an optional leading `+` followed by
class characters only. -/
theorem phoneGroup_shape {t3 g rest : List Char} (h : phoneGroup t3 = some (g, rest)) :
    (∃ r, g = '+' :: r ∧ r.all isPhoneClassChar = true) ∨ g.all isPhoneClassChar = true := by
  have hw : ∀ c ∈ t3.takeWhile isSpaceChar, isSpaceChar c = true :=
    fun c hc => List.mem_takeWhile_imp hc
  rw [phoneGroup] at h
  split at h
  · rename_i t5 heq
    split at h
    · left
      have hg := congrArg Prod.fst (Option.some.inj h)
      simp only at hg
      exact ⟨t5.takeWhile isPhoneClassChar, hg.symm, all_takeWhile _ _⟩
    · right
      exact phoneBacktrack_shape hw (by rfl) h
  · split at h
    · right
      have hg := congrArg Prod.fst (Option.some.inj h)
      simp only at hg
      rw [← hg]
      exact all_takeWhile _ _
    · right
      exact phoneBacktrack_shape hw (all_takeWhile _ _) h

/-- Shape of a phone group as emitted by `tryPhoneAt`. -/
theorem tryPhoneAt_shape {cs g rest : List Char} (h : tryPhoneAt cs = some (g, rest)) :
    (∃ r, g = '+' :: r ∧ r.all isPhoneClassChar = true) ∨ g.all isPhoneClassChar = true := by
  unfold tryPhoneAt at h
  split at h
  · exact absurd h (by simp)
  · split at h
    · exact phoneGroup_shape h
    · exact absurd h (by simp)

theorem take_get_succ {l : List Char} {n : Nat} {c : Char} (h : l.get? n = some c) :
    l.take (n + 1) = l.take n ++ [c] := by
  rw [List.take_succ, ← List.get?_eq_getElem?, h]
  rfl

/-- A successful dot search returns `d ++ '.' :: al` with `d` a nonempty
run of domain characters and `al` at least two alphabetic characters. -/
theorem emailDomainSearch_spec {r2 : List Char} : ∀ {n : Nat} {dm rest : List Char},
    emailDomainSearch r2 n = some (dm, rest) →
      ∃ d al, dm = d ++ '.' :: al ∧ d ≠ [] ∧ d.all isDomainChar = true ∧
        al.all isAlphaChar = true ∧ 2 ≤ al.length := by
  intro n
  induction n with
  | zero =>
    intro dm rest h
    rw [emailDomainSearch] at h
    exact Option.noConfusion h
  | succ n ih =>
    intro dm rest h
    rw [emailDomainSearch] at h
    split at h
    · rename_i hcond
      rw [Bool.and_eq_true, Bool.and_eq_true] at hcond
      have hdot : r2.get? (n + 1) = some '.' := by
        have h1 := hcond.1.1
        exact eq_of_beq h1
      have ha2 : 2 ≤ ((r2.drop (n + 2)).takeWhile isAlphaChar).length := by
        have h1 := hcond.1.2
        exact of_decide_eq_true h1
      have hdall := hcond.2
      have hg : r2.take (n + 2 + ((r2.drop (n + 2)).takeWhile isAlphaChar).length) = dm :=
        congrArg Prod.fst (Option.some.inj h)
      refine ⟨r2.take (n + 1), (r2.drop (n + 2)).takeWhile isAlphaChar, ?_, ?_, hdall,
        all_takeWhile _ _, ha2⟩
      · rw [← hg]
        calc r2.take (n + 2 + ((r2.drop (n + 2)).takeWhile isAlphaChar).length)
            = r2.take (n + 2) ++
              (r2.drop (n + 2)).take ((r2.drop (n + 2)).takeWhile isAlphaChar).length :=
              List.take_add r2 (n + 2) _
          _ = (r2.take (n + 1) ++ ['.']) ++ (r2.drop (n + 2)).takeWhile isAlphaChar := by
              rw [take_takeWhile_length]
              rw [show r2.take (n + 2) = r2.take (n + 1) ++ ['.'] from take_get_succ hdot]
          _ = r2.take (n + 1) ++ '.' :: (r2.drop (n + 2)).takeWhile isAlphaChar := by
              rw [List.append_assoc, List.singleton_append]
      · intro hnil
        have hlen := congrArg List.length hnil
        rw [List.length_take] at hlen
        simp only [List.length_nil] at hlen
        have hr2 : r2.length = 0 := by omega
        have hr2nil : r2 = [] := List.length_eq_zero.mp hr2
        rw [hr2nil] at hdot
        exact Option.noConfusion hdot
    · exact ih h

/-- The deterministic anchored domain matcher accepts strings of the shape
produced by the search. -/
theorem emailDomainFull_of_parts {d al : List Char} (hd : d ≠ [])
    (hdall : d.all isDomainChar = true) (hal : al.all isAlphaChar = true)
    (ha2 : 2 ≤ al.length) : emailDomainFull (d ++ '.' :: al) = true := by
  have hrev : (d ++ '.' :: al).reverse = al.reverse ++ '.' :: d.reverse := by
    rw [List.reverse_append, List.reverse_cons, List.append_assoc, List.singleton_append]
  have htw : (al.reverse ++ '.' :: d.reverse).takeWhile isAlphaChar = al.reverse := by
    rw [List.takeWhile_append_of_pos, List.takeWhile_cons_of_neg (by decide), List.append_nil]
    intro a ha
    rw [List.all_eq_true] at hal
    exact hal a (List.mem_reverse.mp ha)
  rw [emailDomainFull, hrev, htw]
  rw [show (al.reverse ++ '.' :: d.reverse).drop al.reverse.length = '.' :: d.reverse from
    List.drop_left al.reverse ('.' :: d.reverse)]
  rw [Bool.and_eq_true]
  constructor
  · rw [List.length_reverse]
    exact decide_eq_true ha2
  · show (!d.reverse.isEmpty && d.reverse.all isDomainChar) = true
    rw [Bool.and_eq_true]
    constructor
    · cases hdr : d.reverse with
      | nil => exact absurd (by simpa using congrArg List.reverse hdr) hd
      | cons x xs => rfl
    · rw [List.all_eq_true] at hdall ⊢
      exact fun x hx => hdall x (List.mem_reverse.mp hx)

/-- Domain characters, alphabetic characters and the connectives of an
email match are never whitespace. -/
theorem email_parts_nonspace {l dm : List Char}
    (hl : ∀ c ∈ l, isLocalChar c = true)
    (hdm : ∃ d al, dm = d ++ '.' :: al ∧ d ≠ [] ∧ d.all isDomainChar = true ∧
      al.all isAlphaChar = true ∧ 2 ≤ al.length) :
    ∀ c ∈ l ++ '@' :: dm, isSpaceChar c = false := by
  obtain ⟨d, al, rfl, _, hdall, hal, _⟩ := hdm
  intro c hc
  rw [List.all_eq_true] at hdall hal
  rcases List.mem_append.mp hc with hcl | hcr
  · exact local_not_space (hl c hcl)
  · rcases List.mem_cons.mp hcr with rfl | hcr2
    · decide
    · rcases List.mem_append.mp hcr2 with hcd | hca
      · exact domain_not_space (hdall c hcd)
      · rcases List.mem_cons.mp hca with rfl | hca2
        · decide
        · exact alpha_not_space (hal c hca2)

/-- Every string emitted by the email scanner matches the anchored email
regex and contains no whitespace. -/
theorem tryEmailAt_spec {cs g rest : List Char} (h : tryEmailAt cs = some (g, rest)) :
    emailFullMatch g = true ∧ (∀ c ∈ g, isSpaceChar c = false) := by
  rw [tryEmailAt] at h
  split at h
  · exact Option.noConfusion h
  · rename_i hne
    split at h
    · rename_i r2 heq
      cases hdom : emailDomain r2 with
      | none =>
        rw [hdom] at h
        exact Option.noConfusion h
      | some pr =>
        obtain ⟨dm, rest2⟩ := pr
        rw [hdom] at h
        have hg : cs.takeWhile isLocalChar ++ '@' :: dm = g :=
          congrArg Prod.fst (Option.some.inj h)
        have hparts := emailDomainSearch_spec hdom
        have hl : ∀ c ∈ cs.takeWhile isLocalChar, isLocalChar c = true :=
          fun c hc => List.mem_takeWhile_imp hc
        have hns := email_parts_nonspace hl hparts
        rw [← hg]
        refine ⟨?_, hns⟩
        obtain ⟨d, al, hdm, hd, hdall, hal, ha2⟩ := hparts
        rw [emailFullMatch]
        have htw : (cs.takeWhile isLocalChar ++ '@' :: dm).takeWhile isLocalChar =
            cs.takeWhile isLocalChar := by
          rw [List.takeWhile_append_of_pos hl, List.takeWhile_cons_of_neg (by decide),
            List.append_nil]
        rw [htw]
        rw [show (cs.takeWhile isLocalChar ++ '@' :: dm).drop
            (cs.takeWhile isLocalChar).length = '@' :: dm from
          List.drop_left (cs.takeWhile isLocalChar) ('@' :: dm)]
        rw [Bool.and_eq_true]
        constructor
        · cases htl : cs.takeWhile isLocalChar with
          | nil => exact absurd (by rw [htl]; rfl) hne
          | cons x xs => rfl
        · show emailDomainFull dm = true
          rw [hdm]
          exact emailDomainFull_of_parts hd hdall hal ha2
    · exact Option.noConfusion h

/-- The function `validate_email` accepts any whitespace-free string accepted by the
anchored matcher. -/
theorem validate_email_of_match {e : List Char} (hne : e ≠ [])
    (hm : emailFullMatch e = true) (hns : ∀ c ∈ e, isSpaceChar c = false) :
    validate_email (some e) = true := by
  rw [validate_email, if_neg hne, pyStrip_eq_self hns]
  exact hm

/-- The function `validate_phone` on an already-stripped string of phone-group shape
reduces to the length test on the part after the optional `+`. -/
theorem validate_phone_of_stripped {p : List Char} (hne : p ≠ [])
    (hshape : (∃ r, p = '+' :: r ∧ r.all isPhoneClassChar = true) ∨
      p.all isPhoneClassChar = true)
    (hstrip : pyStrip p = p) :
    (phoneTail p).all isPhoneClassChar = true ∧
      validate_phone (some p) = decide (6 ≤ (phoneTail p).length) := by
  rcases hshape with ⟨r, rfl, hall⟩ | hall
  · refine ⟨hall, ?_⟩
    rw [validate_phone, if_neg hne, hstrip]
    split
    · rename_i rest heq
      injection heq with h1 h2
      subst h2
      rw [hall, Bool.true_and]
      rfl
    · rename_i hno
      exact absurd rfl (hno r)
  · cases p with
    | nil => exact absurd rfl hne
    | cons c t =>
      have hcne : c ≠ '+' := by
        intro hc
        rw [List.all_eq_true] at hall
        have h2 := phoneClass_ne_plus (hall c (List.mem_cons_self c t))
        rw [hc] at h2
        exact absurd h2 (by decide)
      have htail : phoneTail (c :: t) = c :: t := by
        rw [phoneTail.eq_def]
        split
        · rename_i r heq
          injection heq with h1 h2
          exact absurd h1 hcne
        · rfl
      rw [htail]
      refine ⟨hall, ?_⟩
      rw [validate_phone, if_neg hne, hstrip]
      split
      · rename_i rest heq
        injection heq with h1 h2
        exact absurd h1 hcne
      · rw [hall, Bool.true_and]

/-- C9, amended: the claim as stated fails for phones — a captured phone
group may begin with whitespace (backtracked from `\s*`) that `strip()`
removes, leaving fewer than six characters, so the entry fails
`validate_phone` (see `extract_phone_invalid`). What holds: every email in
the third list satisfies `validate_email`; every phone in the second list
consists of an optional leading `+` followed only by digits, whitespace,
hyphens and parentheses, and satisfies `validate_phone` exactly when the
part after the optional `+` has at least six characters. -/
theorem extract_owner_details_validate (responses_text : List (List Char)) :
    (∀ e ∈ (extract_owner_details responses_text).2.2, validate_email (some e) = true) ∧
    (∀ p ∈ (extract_owner_details responses_text).2.1,
      (phoneTail p).all isPhoneClassChar = true ∧
      (validate_phone (some p) = true ↔ 6 ≤ (phoneTail p).length)) := by
  constructor
  · intro e he
    have he2 : e ∈ pyDedup [] (email_entries (joinNL responses_text)) := he
    rw [pyDedup_nil] at he2
    obtain ⟨hmem, hne⟩ := mem_dedupKeepFirst he2
    rw [email_entries, List.mem_map] at hmem
    obtain ⟨g, hg, hpost⟩ := hmem
    rw [findall_emails] at hg
    obtain ⟨cs2, rest, htry⟩ := scanCore_mem hg
    obtain ⟨hmatch, hns⟩ := tryEmailAt_spec htry
    have he3 : e = g := by
      rw [← hpost, postStrip, pyStrip_eq_self hns]
    rw [he3] at hne ⊢
    exact validate_email_of_match hne hmatch hns
  · intro p hp
    have hp2 : p ∈ pyDedup [] (phone_entries (joinNL responses_text)) := hp
    rw [pyDedup_nil] at hp2
    obtain ⟨hmem, hne⟩ := mem_dedupKeepFirst hp2
    rw [phone_entries, List.mem_map] at hmem
    obtain ⟨g, hg, hpost⟩ := hmem
    rw [findall_phones] at hg
    obtain ⟨cs2, rest, htry⟩ := scanCore_mem hg
    have hshape := tryPhoneAt_shape htry
    have hstrip : pyStrip p = p := by
      rw [← hpost]
      exact pyStrip_idem g
    have hshape2 : (∃ r, p = '+' :: r ∧ r.all isPhoneClassChar = true) ∨
        p.all isPhoneClassChar = true := by
      rcases hshape with ⟨r, hgr, hall⟩ | hall
      · left
        refine ⟨pyStripRight r, ?_, all_of_sublist (pyStripRight_sublist r) hall⟩
        rw [← hpost, postStrip, hgr, pyStrip_cons_plus]
      · right
        rw [← hpost]
        exact all_of_sublist (pyStrip_sublist g) hall
    obtain ⟨h1, h2⟩ := validate_phone_of_stripped hne hshape2 hstrip
    refine ⟨h1, ?_⟩
    rw [h2]
    exact ⟨of_decide_eq_true, fun h => decide_eq_true h⟩

/-- Counterexample to C9 as stated: in `"Phone:  12345"` the engine
backtracks one whitespace character into the group, the captured group
`" 12345"` is stripped to `"12345"`, and the stored phone entry fails
`validate_phone` (five characters, fewer than the six the anchored pattern
demands). -/
theorem extract_phone_invalid :
    (extract_owner_details ["Phone:  12345".data]).2.1 = ["12345".data] ∧
    validate_phone (some "12345".data) = false := by
  constructor
  · decide
  · decide

/-- Witness for the amended C9 at a concrete response text. -/
theorem extract_owner_details_validate_witness :
    validate_phone (some "123-4567".data) = true ∧
    validate_email (some "a@b.com".data) = true := by
  have h := extract_owner_details_validate ["Phone: 123-4567\nEmail: a@b.com".data]
  constructor
  · exact (h.2 "123-4567".data (by decide)).2.mpr (by decide)
  · exact h.1 "a@b.com".data (by decide)

/-! ## C10: `serialize_for_db` / `deserialize_from_db` round trip -/

/-- C10. Assuming the standard-library JSON contract at the value in
question — `json.loads(json.dumps(v)) == v` and `json.dumps(v) != ""`,
facts about Python's `json` module, which is external to this repository —
a nonempty list or dict round-trips through
`serialize_for_db`/`deserialize_from_db`, while `None` and empty
containers serialize to `None` (SQL `NULL`) and deserialize to the
caller's default. -/
theorem serialize_deserialize_roundtrip (dumps : PyVal → List Char)
    (loads : List Char → Option PyVal) (d : PyVal) :
    (∀ items : List PyVal, items ≠ [] →
      loads (dumps (PyVal.plist items)) = some (PyVal.plist items) →
      dumps (PyVal.plist items) ≠ [] →
      deserialize_from_db loads (serialize_for_db dumps (PyVal.plist items)) d =
        PyVal.plist items) ∧
    (∀ entries : List (List Char × PyVal), entries ≠ [] →
      loads (dumps (PyVal.pdict entries)) = some (PyVal.pdict entries) →
      dumps (PyVal.pdict entries) ≠ [] →
      deserialize_from_db loads (serialize_for_db dumps (PyVal.pdict entries)) d =
        PyVal.pdict entries) ∧
    (serialize_for_db dumps PyVal.pnull = none ∧
      serialize_for_db dumps (PyVal.plist []) = none ∧
      serialize_for_db dumps (PyVal.pdict []) = none ∧
      deserialize_from_db loads none d = d) := by
  refine ⟨?_, ?_, rfl, rfl, rfl, rfl⟩
  · intro items hne hround hnonempty
    cases items with
    | nil => exact absurd rfl hne
    | cons x xs =>
      show (if dumps (PyVal.plist (x :: xs)) = [] then d
        else (loads (dumps (PyVal.plist (x :: xs)))).getD d) = PyVal.plist (x :: xs)
      rw [if_neg hnonempty, hround]
      rfl
  · intro entries hne hround hnonempty
    cases entries with
    | nil => exact absurd rfl hne
    | cons x xs =>
      show (if dumps (PyVal.pdict (x :: xs)) = [] then d
        else (loads (dumps (PyVal.pdict (x :: xs)))).getD d) = PyVal.pdict (x :: xs)
      rw [if_neg hnonempty, hround]
      rfl

/-- A toy codec instantiating the JSON contract at one value, for the
witness below. -/
def dumpsW : PyVal → List Char := fun _ => "x".data

/-- The matching toy decoder. -/
def loadsW : List Char → Option PyVal := fun _ => some (PyVal.plist [PyVal.pint 1])

/-- Witness for C10 at a concrete nonempty list value. -/
theorem serialize_deserialize_roundtrip_witness :
    deserialize_from_db loadsW (serialize_for_db dumpsW (PyVal.plist [PyVal.pint 1]))
      PyVal.pnull = PyVal.plist [PyVal.pint 1] ∧
    serialize_for_db dumpsW PyVal.pnull = none ∧
    deserialize_from_db loadsW none PyVal.pnull = PyVal.pnull := by
  have h := serialize_deserialize_roundtrip dumpsW loadsW PyVal.pnull
  exact ⟨h.1 [PyVal.pint 1] (by simp) rfl (by decide), h.2.2.1, h.2.2.2.2.2⟩

end DataFetcher
